import Mathlib

/-!
Verification of the page-accumulation and extraction-result merging engine
of the document-processing pipeline (repository `Normal_yc_checking_Run_chunkr`).

The Python sources are shallowly embedded as executable Lean definitions:

* `src/my_lambda/mongo.py` — extraction-result merging
  (`extract_all_fields_and_tables`, `extract_field_values_with_llm_forfields`,
  `extract_table_fields_with_llm`, `update_extraction_results_to_mongo`,
  `fetch_requested_fields`),
* `src/my_lambda1/chunkr.py` and `src/my_lambda/chunkr.py` — page assembly
  (`extract_text_from_chunk`, `get_page_number`, `process_file_async`),
* `src/my_lambda/services/textract_service.py` — the marks parser
  (`_safe_to_int`, `_is_checkmark`, `extract_marks`).

JSON values are modelled by the inductive `JVal`; Python dictionaries are
modelled by key-ordered association lists manipulated with Python `dict`
semantics (`insertKV`).  Machine-level caveats of the model are noted at each
definition.  JSON numbers are restricted to integers (no claim concerns
floating point); string case-mapping and whitespace are ASCII, matching every
string the pipeline manipulates in the claims below.
-/

set_option maxHeartbeats 1000000

namespace YcRun

/-- A JSON value as produced by Python `json.loads`: objects keep key order,
duplicate keys having been collapsed by `dict` insertion while parsing. -/
inductive JVal where
  | null
  | bool (b : Bool)
  | num (n : Int)
  | str (s : String)
  | arr (xs : List JVal)
  | obj (kvs : List (String × JVal))

/-- Opening brace character (written via its code point). -/
def lbrace : Char := Char.ofNat 123

/-- Closing brace character (written via its code point). -/
def rbrace : Char := Char.ofNat 125

/-- Double-quote character. -/
def quoteCh : Char := Char.ofNat 34

/-- Backslash character. -/
def backslashCh : Char := Char.ofNat 92

/-- The whitespace characters recognised by Python `str.strip` and by
`json.loads` on the ASCII inputs this pipeline handles. -/
def chIsWs (c : Char) : Bool :=
  c == ' ' || c == '\t' || c == '\n' || c == '\r'

/-- Character-list version of Python `str.strip()`. -/
def chTrim (cs : List Char) : List Char :=
  ((cs.dropWhile chIsWs).reverse.dropWhile chIsWs).reverse

/-- Python `s.strip()` (ASCII whitespace). -/
def strTrim (s : String) : String := String.mk (chTrim s.toList)

/-- ASCII lower-casing of one character, as Python `str.lower` does on the
ASCII range. -/
def chLower (c : Char) : Char :=
  if 'A' ≤ c ∧ c ≤ 'Z' then Char.ofNat (c.toNat + 32) else c

/-- ASCII upper-casing of one character. -/
def chUpper (c : Char) : Char :=
  if 'a' ≤ c ∧ c ≤ 'z' then Char.ofNat (c.toNat - 32) else c

/-- Python `s.lower()` (ASCII). -/
def strLower (s : String) : String := String.mk (s.toList.map chLower)

/-- Python `s.upper()` (ASCII). -/
def strUpper (s : String) : String := String.mk (s.toList.map chUpper)

/-- Does `cs` start with `pat`? -/
def chHasPrefix : List Char → List Char → Bool
  | [], _ => true
  | _ :: _, [] => false
  | p :: ps, c :: cs => p == c && chHasPrefix ps cs

/-- Does `pat` occur as a contiguous run inside `cs`?  This is Python
`pat in s` for strings. -/
def chInfix (pat : List Char) : List Char → Bool
  | [] => pat.isEmpty
  | c :: cs => chHasPrefix pat (c :: cs) || chInfix pat cs

/-- Python substring test `pat in s`. -/
def strInfix (pat s : String) : Bool := chInfix pat.toList s.toList

/-- Python `sep.join(xs)`. -/
def strJoin (sep : String) : List String → String
  | [] => ""
  | x :: t => t.foldl (fun acc y => acc ++ sep ++ y) x

/-- Numeric value of a digit run (most significant first). -/
def digitsToNat (ds : List Char) : Nat :=
  ds.foldl (fun n c => n * 10 + (c.toNat - 48)) 0

/-- Python `dict.__setitem__`: an existing key keeps its position and gets the
new value; a new key is appended at the end. -/
def insertKV : List (String × JVal) → String → JVal → List (String × JVal)
  | [], k, v => [(k, v)]
  | kv :: rest, k, v =>
    if kv.1 = k then (k, v) :: rest else kv :: insertKV rest k v

/-- Python `dict.__getitem__` / `dict.get`: the value stored at `k`.  On the
association lists this development builds, keys are unique, so the first
match is the binding. -/
def lookupKV {α : Type} (kvs : List (String × α)) (k : String) : Option α :=
  (kvs.find? (fun kv => kv.1 == k)).map (fun kv => kv.2)

/-- Python `k in d` for dictionaries. -/
def containsKey {α : Type} (kvs : List (String × α)) (k : String) : Bool :=
  kvs.any (fun kv => kv.1 == k)

/-- Specification-side helper naming the "last write wins" policy: the value
of the LAST binding of `k` in a flat list of key/value pairs. -/
def lookupLast {α : Type} : List (String × α) → String → Option α
  | [], _ => none
  | kv :: t, k =>
    match lookupLast t k with
    | some v => some v
    | none => if kv.1 = k then some kv.2 else none

/-! ## JSON parser

A model of Python `json.loads` restricted to the values this pipeline
exchanges: objects, arrays, strings (with the standard escapes), integers,
booleans and `null`.  Fractional/exponent number forms and the non-standard
`NaN`/`Infinity` literals are not modelled (no claim involves them); on such
input the model rejects where CPython would accept, and no theorem below
depends on that corner.  Duplicate object keys collapse via `insertKV`,
mirroring `dict` construction.  `none` models a raised `JSONDecodeError`. -/

/-- Skip JSON whitespace. -/
def skipWs : List Char → List Char
  | c :: cs => if chIsWs c then skipWs cs else c :: cs
  | [] => []

/-- Hexadecimal digit value. -/
def hexVal (c : Char) : Option Nat :=
  if '0' ≤ c ∧ c ≤ '9' then some (c.toNat - 48)
  else if 'a' ≤ c ∧ c ≤ 'f' then some (c.toNat - 87)
  else if 'A' ≤ c ∧ c ≤ 'F' then some (c.toNat - 55)
  else none

/-- Parse the body of a JSON string after the opening quote, accumulating
characters; returns the string and the input after the closing quote. -/
def parseStringBody : List Char → List Char → Option (String × List Char)
  | [], _ => none
  | c :: cs, acc =>
    if c == quoteCh then some (String.mk acc.reverse, cs)
    else if c == backslashCh then
      match cs with
      | [] => none
      | e :: cs2 =>
        if e == quoteCh then parseStringBody cs2 (quoteCh :: acc)
        else if e == backslashCh then parseStringBody cs2 (backslashCh :: acc)
        else if e == '/' then parseStringBody cs2 ('/' :: acc)
        else if e == 'n' then parseStringBody cs2 ('\n' :: acc)
        else if e == 't' then parseStringBody cs2 ('\t' :: acc)
        else if e == 'r' then parseStringBody cs2 ('\r' :: acc)
        else if e == 'b' then parseStringBody cs2 (Char.ofNat 8 :: acc)
        else if e == 'f' then parseStringBody cs2 (Char.ofNat 12 :: acc)
        else if e == 'u' then
          match cs2 with
          | h1 :: h2 :: h3 :: h4 :: cs3 =>
            match hexVal h1, hexVal h2, hexVal h3, hexVal h4 with
            | some a, some b, some c3, some d =>
              parseStringBody cs3 (Char.ofNat (((a * 16 + b) * 16 + c3) * 16 + d) :: acc)
            | _, _, _, _ => none
          | _ => none
        else none
    else if c.toNat < 32 then none
    else parseStringBody cs (c :: acc)

/-- Split a leading run of ASCII digits. -/
def spanDigits : List Char → (List Char × List Char)
  | [] => ([], [])
  | c :: cs =>
    if c.isDigit then
      let (ds, rest) := spanDigits cs
      (c :: ds, rest)
    else ([], c :: cs)

/-- Parse a JSON integer (sign and digits; a leading zero may not be followed
by further digits, and fraction/exponent forms are outside the model). -/
def parseNum (cs : List Char) : Option (JVal × List Char) :=
  let signed := match cs with
    | c :: t => if c == '-' then (true, t) else (false, cs)
    | [] => (false, ([] : List Char))
  let ds := spanDigits signed.2
  match ds.1 with
  | [] => none
  | d0 :: drest =>
    if d0 == '0' ∧ drest ≠ [] then none
    else
      match ds.2 with
      | c :: _ =>
        if c == '.' ∨ c == 'e' ∨ c == 'E' then none
        else some (.num (if signed.1 then -(digitsToNat ds.1 : Int) else (digitsToNat ds.1 : Int)), ds.2)
      | [] => some (.num (if signed.1 then -(digitsToNat ds.1 : Int) else (digitsToNat ds.1 : Int)), ds.2)

mutual

/-- Parse one JSON value (fuel bounds the nesting depth). -/
def parseVal : Nat → List Char → Option (JVal × List Char)
  | 0, _ => none
  | fuel + 1, cs =>
    match skipWs cs with
    | [] => none
    | c :: rest =>
      if c == lbrace then
        match skipWs rest with
        | d :: rest2 =>
          if d == rbrace then some (.obj [], rest2)
          else parseMembers fuel (d :: rest2) []
        | [] => none
      else if c == '[' then
        match skipWs rest with
        | d :: rest2 =>
          if d == ']' then some (.arr [], rest2)
          else parseElems fuel (d :: rest2) []
        | [] => none
      else if c == quoteCh then
        match parseStringBody rest [] with
        | some (s, rest2) => some (.str s, rest2)
        | none => none
      else if chHasPrefix ['t', 'r', 'u', 'e'] (c :: rest) then
        some (.bool true, (c :: rest).drop 4)
      else if chHasPrefix ['f', 'a', 'l', 's', 'e'] (c :: rest) then
        some (.bool false, (c :: rest).drop 5)
      else if chHasPrefix ['n', 'u', 'l', 'l'] (c :: rest) then
        some (.null, (c :: rest).drop 4)
      else parseNum (c :: rest)

/-- Parse the members of a JSON object after its opening brace. -/
def parseMembers : Nat → List Char → List (String × JVal) → Option (JVal × List Char)
  | 0, _, _ => none
  | fuel + 1, cs, acc =>
    match skipWs cs with
    | [] => none
    | c :: rest =>
      if c == quoteCh then
        match parseStringBody rest [] with
        | none => none
        | some (k, rest2) =>
          match skipWs rest2 with
          | [] => none
          | d :: rest3 =>
            if d == ':' then
              match parseVal fuel rest3 with
              | none => none
              | some (v, rest4) =>
                let acc2 := insertKV acc k v
                match skipWs rest4 with
                | [] => none
                | e :: rest5 =>
                  if e == ',' then parseMembers fuel rest5 acc2
                  else if e == rbrace then some (.obj acc2, rest5)
                  else none
            else none
      else none

/-- Parse the elements of a JSON array after its opening bracket. -/
def parseElems : Nat → List Char → List JVal → Option (JVal × List Char)
  | 0, _, _ => none
  | fuel + 1, cs, acc =>
    match parseVal fuel cs with
    | none => none
    | some (v, rest) =>
      match skipWs rest with
      | [] => none
      | e :: rest2 =>
        if e == ',' then parseElems fuel rest2 (acc ++ [v])
        else if e == ']' then some (.arr (acc ++ [v]), rest2)
        else none

end

/-- Model of Python `json.loads`: parse one value and require only whitespace
to remain. -/
def parseJson (s : String) : Option JVal :=
  match parseVal (s.toList.length + 1) s.toList with
  | some (v, rest) => if skipWs rest = [] then some v else none
  | none => none

/-! ## Table/Field schema normalizer

`fetch_requested_fields` (src/my_lambda/mongo.py, lines 135-172).  The raw
schema entries and nested table columns are dictionaries read with `.get` and
defaults; they are modelled as structures of optional attributes. -/

/-- One nested column dictionary inside a raw table entry (`tableData`). -/
structure RawCol where
  fieldName : Option String
  fieldDatatype : Option String
  fieldDescription : Option String
  fieldExample : Option String
  deriving DecidableEq

/-- One raw entry of `requestedFields`. -/
structure RawField where
  fieldType : Option String
  fieldName : Option String
  fieldDatatype : Option String
  fieldDescription : Option String
  fieldExample : Option String
  tableData : Option (List RawCol)
  deriving DecidableEq

/-- A normalized extraction target as appended to `normalized_fields`. -/
structure Target where
  fieldType : String
  tableName : Option String
  fieldName : String
  fieldDatatype : String
  fieldDescription : String
  fieldExample : String
  deriving DecidableEq

/-- The targets one raw entry contributes: the body of the
`for field in requested_fields` loop of `fetch_requested_fields`.  An entry
whose trimmed name is empty is skipped; a `field` entry yields one target; a
`table` entry with columns yields one target per non-empty-named column; a
table without columns, or an unrecognized `fieldType`, yields nothing. -/
def emitField (f : RawField) : List Target :=
  let ftype := f.fieldType.getD "field"
  let name := strTrim (f.fieldName.getD "")
  if name = "" then []
  else if ftype = "field" then
    [{ fieldType := "field", tableName := none, fieldName := name,
       fieldDatatype := f.fieldDatatype.getD "String",
       fieldDescription := f.fieldDescription.getD "",
       fieldExample := f.fieldExample.getD "" }]
  else if ftype = "table" then
    match f.tableData.getD [] with
    | [] => []
    | c0 :: crest =>
      (c0 :: crest).filterMap (fun c =>
        let cname := strTrim (c.fieldName.getD "")
        if cname = "" then none
        else some { fieldType := "table", tableName := some name, fieldName := cname,
                    fieldDatatype := c.fieldDatatype.getD "String",
                    fieldDescription := c.fieldDescription.getD "",
                    fieldExample := c.fieldExample.getD "" })
  else []

/-- The normalization loop of `fetch_requested_fields`: accumulate the
targets of each raw entry in input order. -/
def normalizeRequestedFields (fields : List RawField) : List Target :=
  fields.foldl (fun acc f => acc ++ emitField f) []

/-! ## Extraction-result merger

`extract_all_fields_and_tables`, `extract_field_values_with_llm_forfields`
and `extract_table_fields_with_llm` (src/my_lambda/mongo.py).  A raised
Python exception inside the guarded fix-up code is modelled by `none`, which
the caller converts into the `\x7b"raw": ...\x7d` fallback record exactly as
the `except` branches do. -/

/-- `re.search(r'\x7b[\s\S]*\x7d', raw)`: the substring from the first
opening brace (that has a closing brace after it) to the last closing brace;
when the pattern does not match, the text is left unchanged (the callers keep
`raw` as it was). -/
def lastIdxOf (cs : List Char) (c : Char) : Option Nat :=
  match cs.reverse.findIdx? (fun x => x == c) with
  | some k => some (cs.length - 1 - k)
  | none => none

/-- The brace-region extraction applied to a raw LLM response before parsing. -/
def extractRegion (raw : String) : String :=
  let cs := raw.toList
  match cs.findIdx? (fun x => x == lbrace), lastIdxOf cs rbrace with
  | some i, some j => if i < j then String.mk ((cs.drop i).take (j - i + 1)) else raw
  | _, _ => raw

/-- Tail of `extract_all_fields_and_tables` (mongo.py lines 384-393): regex
clean-up, `json.loads`, and the `\x7b"raw": raw\x7d` fallback on parse error. -/
def mergeUnified (raw : String) : JVal :=
  let cleaned := extractRegion raw
  match parseJson cleaned with
  | some v => v
  | none => .obj [("raw", .str cleaned)]

/-- The back-fill loop shared (verbatim in logic) by
`extract_field_values_with_llm_forfields` (lines 462-464) and
`extract_table_fields_with_llm` (lines 548-551): any declared field name
missing from the dictionary is appended with value `None`. -/
def fillMissing (fields : List Target) (kvs : List (String × JVal)) : List (String × JVal) :=
  fields.foldl (fun acc f =>
    if containsKey acc f.fieldName then acc else acc ++ [(f.fieldName, JVal.null)]) kvs

/-- Python equality of a declared name against one element of a parsed JSON
list (`name in list`): only a string element can compare equal. -/
def strElemEq (name : String) (v : JVal) : Bool :=
  match v with
  | .str s => s == name
  | _ => false

/-- The guarded `for f in field: if name not in parsed: parsed[name] = None`
loop applied to an arbitrary parsed JSON value.  A dictionary is back-filled;
a list or string survives only when every declared name already passes the
Python `in` test (otherwise the item assignment raises `TypeError`, modelled
as `none`); any other value raises on the first `in` test. -/
def backfillMissingE (fields : List Target) (parsed : JVal) : Option JVal :=
  match parsed with
  | .obj kvs => some (.obj (fillMissing fields kvs))
  | .str s => if fields.all (fun f => strInfix f.fieldName s) then some (.str s) else none
  | .arr xs => if fields.all (fun f => xs.any (strElemEq f.fieldName)) then some (.arr xs) else none
  | other => if fields.isEmpty then some other else none

/-- Steps 3 of `extract_field_values_with_llm_forfields` (lines 452-468) for
one LLM completion `value`: strip, brace-region clean-up, `json.loads`,
ensure every requested field key exists, and the `\x7b"raw": ...\x7d`
fallback when parsing or the fix-up raises.  (The source appends the result
to a singleton `extracted_values` list; the element is modelled.) -/
def forfieldsParse (fields : List Target) (value : String) : JVal :=
  let rawOut := extractRegion (strTrim value)
  match parseJson rawOut with
  | none => .obj [("raw", .str rawOut)]
  | some parsed =>
    match backfillMissingE fields parsed with
    | some v => v
    | none => .obj [("raw", .str rawOut)]

/-- Run a fallible function over a list, failing as soon as one element
fails (the first raised exception aborts the whole guarded loop). -/
def mapOptionAll {α β : Type} (f : α → Option β) : List α → Option (List β)
  | [] => some []
  | a :: t =>
    match f a with
    | none => none
    | some b =>
      match mapOptionAll f t with
      | none => none
      | some bs => some (b :: bs)

/-- The `for row in parsed[table_name]` iteration: a list iterates its rows;
a dictionary iterates its KEYS (strings, which survive only when no item
assignment is attempted on them); a string iterates its characters; anything
else raises `TypeError`. -/
def tableFixVal (fields : List Target) : JVal → Option JVal
  | .arr rows =>
    match mapOptionAll (backfillMissingE fields) rows with
    | some rows2 => some (.arr rows2)
    | none => none
  | .obj kvs2 =>
    if kvs2.all (fun kv => fields.all (fun f => strInfix f.fieldName kv.1))
      then some (.obj kvs2) else none
  | .str s =>
    if s.toList.all (fun c => fields.all (fun f => strInfix f.fieldName (String.singleton c)))
      then some (.str s) else none
  | _ => none

/-- The dictionary case of the per-table fix-up: when the table name is a
key, its value is iterated and back-filled; otherwise the whole parsed
dictionary is wrapped as a single row WITHOUT back-fill
(`parsed = \x7btable_name: [parsed]\x7d`). -/
def tableFixObj (table : String) (fields : List Target) (kvs : List (String × JVal)) : Option JVal :=
  match lookupKV kvs table with
  | some v => tableFixVal fields v
  | none => some (.arr [.obj kvs])

/-- The guarded per-table fix-up of `extract_table_fields_with_llm` (lines
544-555) on the parsed value: when the table name is a key, every row of its
list is back-filled with the declared columns (a non-list value or a raising
row aborts to the `except` branch, i.e. `none`); when the table name is not a
key, the parsed value is wrapped as the row list WITHOUT back-fill. -/
def tableFixE (table : String) (fields : List Target) : JVal → Option JVal
  | .obj kvs => tableFixObj table fields kvs
  | .arr xs => if xs.any (strElemEq table) then none else some (.arr xs)
  | .str s => if strInfix table s then none else some (.arr [.str s])
  | _ => none

/-- Steps 3-4 of `extract_table_fields_with_llm` for one table schema and one
LLM completion: strip, brace-region clean-up, `json.loads`, fix-up, fallback. -/
def tableMerge (table : String) (fields : List Target) (value : String) : JVal :=
  let rawOut := extractRegion (strTrim value)
  match parseJson rawOut with
  | none => .obj [("raw", .str rawOut)]
  | some parsed =>
    match tableFixE table fields parsed with
    | some v => v
    | none => .obj [("raw", .str rawOut)]

/-! ## Field-list persistence normalization

`update_extraction_results_to_mongo` (mongo.py lines 602-642): the raw
field-result dictionaries are merged with `dict.update` (last write wins) and
each merged value is stringified and stripped, `None` becoming `""`. -/

/-- Apostrophe as a string (Python `repr` quote). -/
def sq : String := String.singleton (Char.ofNat 39)

mutual

/-- Python `repr` of a parsed JSON value (scalars exactly; containers in
Python display form, quoting strings — escape sequences inside the quoted
text are not reproduced, and no claim evaluates them). -/
def pyRepr : JVal → String
  | .null => "None"
  | .bool true => "True"
  | .bool false => "False"
  | .num n => toString n
  | .str s => sq ++ s ++ sq
  | .arr xs => "[" ++ strJoin ", " (pyReprList xs) ++ "]"
  | .obj kvs => String.singleton lbrace ++ strJoin ", " (pyReprKVs kvs) ++ String.singleton rbrace

/-- `repr` of the elements of a list. -/
def pyReprList : List JVal → List String
  | [] => []
  | v :: t => pyRepr v :: pyReprList t

/-- `repr` of the entries of a dictionary. -/
def pyReprKVs : List (String × JVal) → List String
  | [] => []
  | kv :: t => (sq ++ kv.1 ++ sq ++ ": " ++ pyRepr kv.2) :: pyReprKVs t

end

/-- Python `str()` of a parsed JSON value: a string is itself, anything else
displays as its `repr`. -/
def pyStr (v : JVal) : String :=
  match v with
  | .str s => s
  | _ => pyRepr v

/-- `str(value).strip() if value is not None else ""` (mongo.py line 614). -/
def normVal (v : JVal) : String :=
  match v with
  | .null => ""
  | _ => strTrim (pyStr v)

/-- `merged_fields.update(result)` for one raw field map: Python `dict.update`
inserts each pair in order, overwriting existing keys in place. -/
def dictUpdate (d : List (String × JVal)) (r : List (String × JVal)) : List (String × JVal) :=
  r.foldl (fun acc kv => insertKV acc kv.1 kv.2) d

/-- The merge loop of `update_extraction_results_to_mongo` (lines 608-611):
fold the raw field maps into one dictionary with `dict.update`. -/
def mergedFields (results : List (List (String × JVal))) : List (String × JVal) :=
  results.foldl dictUpdate []

/-- The normalization comprehension of `update_extraction_results_to_mongo`
(lines 613-616) without the surrounding `if merged_fields else None` guard
(which only decides whether the mapping is stored at all). -/
def normalizeFields (merged : List (String × JVal)) : List (String × String) :=
  merged.map (fun kv => (kv.1, normVal kv.2))

/-! ## Page assembler

`extract_text_from_chunk`, `get_page_number` and the chunk-processing tail of
`process_file_async` in src/my_lambda1/chunkr.py (page-grouping variant) and
src/my_lambda/chunkr.py (enumerate variant).  A chunk is modelled by its
optional text attributes and the optional page number its metadata carries
(an empty metadata mapping and a missing one are both `none`). -/

/-- A sub-segment of a chunk: optional content, optional metadata page. -/
structure Segment where
  content : Option String
  pageNumber : Option Nat
  deriving DecidableEq

/-- One chunk returned by the segmentation service. -/
structure Chunk where
  llm : Option String
  content : Option String
  segments : Option (List Segment)
  html : Option String
  pageNumber : Option Nat
  deriving DecidableEq

/-- Python truthiness of an optional string attribute. -/
def optTruthy : Option String → Bool
  | some s => s ≠ ""
  | none => false

/-- Python truthiness of an optional segment list. -/
def segsTruthy : Option (List Segment) → Bool
  | some (_ :: _) => true
  | _ => false

/-- Model of `BeautifulSoup(text, "html.parser").get_text(separator="\n")`:
tag spans are removed, a newline standing where each tag was.  (Third-party
library behaviour; no claim depends on its exact output.) -/
def stripHtmlAux : List Char → Bool → List Char
  | [], _ => []
  | c :: cs, inTag =>
    if inTag then
      if c == '>' then '\n' :: stripHtmlAux cs false else stripHtmlAux cs true
    else
      if c == '<' then stripHtmlAux cs true else c :: stripHtmlAux cs false

/-- HTML tag stripping as applied when the selected text contains both `<`
and `>`. -/
def stripHtml (s : String) : String := String.mk (stripHtmlAux s.toList false)

/-- `extract_text_from_chunk`: first non-empty representation wins
(`llm` > `content` > joined segment contents > `html`), markup is stripped
when both angle brackets occur, and the result is stripped of whitespace.
Both chunkr.py variants implement this same selection. -/
def extractTextFromChunk (c : Chunk) : String :=
  let t :=
    if optTruthy c.llm then c.llm.getD ""
    else if optTruthy c.content then c.content.getD ""
    else if segsTruthy c.segments then
      strJoin "\n" ((c.segments.getD []).filterMap
        (fun s => if optTruthy s.content then s.content else none))
    else if optTruthy c.html then c.html.getD ""
    else ""
  let t2 := if (t.toList.any (fun ch => ch == '<')) && (t.toList.any (fun ch => ch == '>'))
    then stripHtml t else t
  strTrim t2

/-- `get_page_number`: chunk-level metadata page, else the first segment
carrying one, else the default page 1. -/
def getPageNumber (c : Chunk) : Nat :=
  match c.pageNumber with
  | some p => p
  | none =>
    match (c.segments.getD []).findSome? (fun s => s.pageNumber) with
    | some p => p
    | none => 1

/-- `pages.setdefault(page_no, []).append(text)`: append the fragment to the
page's list, creating the page at the end on first sight. -/
def addToPage : List (Nat × List String) → Nat → String → List (Nat × List String)
  | [], p, t => [(p, [t])]
  | (q, ts) :: rest, p, t =>
    if q = p then (q, ts ++ [t]) :: rest else (q, ts) :: addToPage rest p t

/-- The body of the grouping loop of `process_file_async`
(src/my_lambda1/chunkr.py lines 126-133): skip a chunk with empty text,
otherwise file its text under its resolved page. -/
def groupStep (pages : List (Nat × List String)) (c : Chunk) : List (Nat × List String) :=
  let p := getPageNumber c
  let t := extractTextFromChunk c
  if t = "" then pages else addToPage pages p t

/-- Group all chunks by page in arrival order. -/
def groupPages (chunks : List Chunk) : List (Nat × List String) :=
  chunks.foldl groupStep []

/-- Insert into a sorted list (ascending). -/
def insertSorted (x : Nat) : List Nat → List Nat
  | [] => [x]
  | y :: ys => if x ≤ y then x :: y :: ys else y :: insertSorted x ys

/-- `sorted(pages.keys())`: ascending sort of the page numbers. -/
def sortNat : List Nat → List Nat
  | [] => []
  | x :: xs => insertSorted x (sortNat xs)

/-- The page numbers in first-arrival order. -/
def pageKeys (chunks : List Chunk) : List Nat :=
  (groupPages chunks).map Prod.fst

/-- `pages[page_no]`: the fragment list of a page. -/
def pageLookup : List (Nat × List String) → Nat → List String
  | [], _ => []
  | (q, ts) :: rest, p => if q = p then ts else pageLookup rest p

/-- `list(dict.fromkeys(fragments))`: drop duplicates, keeping each
fragment's first occurrence in order (`acc` is the part already kept). -/
def dedupAux : List String → List String → List String
  | [], acc => acc
  | x :: xs, acc => if x ∈ acc then dedupAux xs acc else dedupAux xs (acc ++ [x])

/-- First-seen-order deduplication of a page's fragments. -/
def dedupFirst (l : List String) : List String := dedupAux l []

/-- The fragment list filed for page `p`. -/
def pageFrags (chunks : List Chunk) (p : Nat) : List String :=
  pageLookup (groupPages chunks) p

/-- The ordered page blocks before labelling: for each page number in
ascending order, its deduplicated fragments joined by a blank line and
stripped (src/my_lambda1/chunkr.py lines 140-143). -/
def assembleBlocks (chunks : List Chunk) : List (Nat × String) :=
  (sortNat (pageKeys chunks)).map (fun p =>
    (p, strTrim (strJoin "\n\n" (dedupFirst (pageFrags chunks p)))))

/-- The labelled page block (src/my_lambda1/chunkr.py lines 145-148). -/
def labelBlock (b : Nat × String) : String :=
  "===== CHUNKR PAGE NUMBER " ++ toString b.1 ++ " =====\n" ++ b.2

/-- The chunk-processing tail of `process_file_async`
(src/my_lambda1/chunkr.py lines 115-156): empty chunk list returns
`("", 0)`; otherwise the labelled blocks joined by blank lines, plus their
count. -/
def assemble (chunks : List Chunk) : String × Nat :=
  if chunks = [] then ("", 0)
  else
    let finalPages := (assembleBlocks chunks).map labelBlock
    (strJoin "\n\n" finalPages, finalPages.length)

/-- The enumerate variant (src/my_lambda/chunkr.py lines 74-78): pages are
the 1-based chunk positions, chunks with empty text are skipped but still
consume their position. -/
def mlEntries (chunks : List Chunk) : List (Nat × String) :=
  (List.enumFrom 1 chunks).filterMap (fun ic =>
    let t := extractTextFromChunk ic.2
    if strTrim t = "" then none else some (ic.1, strTrim t))

/-- The label of the enumerate variant — note the TWO spaces after the
opening fence, exactly as in src/my_lambda/chunkr.py line 77. -/
def mlLabel (e : Nat × String) : String :=
  "=====  CHUNKR PAGE NUMBER " ++ toString e.1 ++ " =====\n" ++ e.2

/-- The labelled blocks of the enumerate variant after duplicate removal
(src/my_lambda/chunkr.py line 81). -/
def mlPageTexts (chunks : List Chunk) : List String :=
  dedupFirst ((mlEntries chunks).map mlLabel)

/-- The assembled output of the enumerate variant (lines 80-86). -/
def mlAssemble (chunks : List Chunk) : String × Nat :=
  (strJoin "\n\n" (mlPageTexts chunks), (mlPageTexts chunks).length)

/-! ## Marks parser

`_safe_to_int`, `_is_checkmark` and `extract_marks`
(src/my_lambda/services/textract_service.py lines 107-201). -/

/-- `_safe_to_int`: strip, delete every non-digit, and read the remaining
digits as an integer; no digits (or an empty/falsy value) gives `None`. -/
def safeToInt (s : String) : Option Nat :=
  match (chTrim s.toList).filter Char.isDigit with
  | [] => none
  | ds => some (digitsToNat ds)

/-- `_is_checkmark`: the literal token SELECTED (case-insensitive) or one of
the recognized glyphs. -/
def isCheckmark (s : String) : Bool :=
  let v := strTrim s
  strUpper v == "SELECTED" || v == "✓" || v == "/" || v == "\\" || v == "√" ||
    v == "×" || v == "x"

/-- One extracted question entry. -/
structure MarkEntry where
  qNo : String
  marks : Option Nat
  answered : Bool
  deriving DecidableEq

/-- The `Totals` dictionary: a key may be absent (outer `none`) or present
with the `None` value `_safe_to_int` can produce (inner `none`). -/
structure MarksTotals where
  partATotal : Option (Option Nat)
  partBCTotal : Option (Option Nat)
  grandTotal : Option Nat
  deriving DecidableEq

/-- The populated `metadata` counter dictionary. -/
structure MarksMeta where
  totalA : Nat
  answeredA : Nat
  totalBC : Nat
  answeredBC : Nat
  deriving DecidableEq

/-- The accumulator built while scanning the data rows. -/
structure MarksState where
  partA : List MarkEntry
  partBC : List MarkEntry
  totals : MarksTotals
  meta : MarksMeta
  deriving DecidableEq

/-- The value `extract_marks` returns; `metadata = none` models the literal
empty metadata dictionary of the no-tables early return. -/
structure MarksResult where
  partA : List MarkEntry
  partBC : List MarkEntry
  totals : MarksTotals
  metadata : Option MarksMeta
  deriving DecidableEq

/-- `row[i]` under a `len(row) > i` guard. -/
def rowGet (row : List String) (i : Nat) : String := row.getD i ""

/-- The accepted-row actions of the Part A section (lines 153-156): append
the entry and bump the two counters. -/
def pushA (st : MarksState) (q : String) (mark : Option Nat) (ans : Bool) : MarksState :=
  { st with
    partA := st.partA ++ [{ qNo := q, marks := mark, answered := ans }],
    meta := { st.meta with
      totalA := st.meta.totalA + 1,
      answeredA := st.meta.answeredA + (if ans then 1 else 0) } }

/-- The Part A section of the row loop (lines 147-158): question number from
column 0, marks from column 2, answered flag from column 1, accepted for
questions 1-10. -/
def stepA (st : MarksState) (row : List String) : MarksState :=
  match (if row.length > 0 then safeToInt (rowGet row 0) else none) with
  | some n =>
    if 1 ≤ n ∧ n ≤ 10 then
      pushA st (toString n)
        (if row.length > 2 then safeToInt (rowGet row 2) else none)
        (if row.length > 1 then isCheckmark (rowGet row 1) else false)
    else st
  | none => st

/-- The fallback `sum(_safe_to_int(row[i]) or 0 for i in [6, 8, 10] if
len(row) > i)`. -/
def sumFallback (row : List String) : Nat :=
  [6, 8, 10].foldl (fun acc i =>
    if row.length > i then acc + ((safeToInt (rowGet row i)).getD 0) else acc) 0

/-- The accepted-row actions of the Part B/C section (lines 176-180): unless
the identifier already occurs, append the entry and bump the two counters. -/
def pushBC (st : MarksState) (qid : String) (tm : Nat) (ans : Bool) : MarksState :=
  if st.partBC.any (fun e => e.qNo == qid) then st
  else
    { st with
      partBC := st.partBC ++ [{ qNo := qid, marks := some tm, answered := ans }],
      meta := { st.meta with
        totalBC := st.meta.totalBC + 1,
        answeredBC := st.meta.answeredBC + (if ans then 1 else 0) } }

/-- The sub-part letter of column 4 (`row[4].strip().lower() if len(row) > 4
and row[4] else ""`). -/
def subPartOf (row : List String) : String :=
  if row.length > 4 ∧ rowGet row 4 ≠ "" then strLower (strTrim (rowGet row 4)) else ""

/-- The total marks of a Part B/C row: column 11 when it parses, otherwise
the summed fallback over columns 6/8/10. -/
def totalMarksOf (row : List String) : Nat :=
  match (if row.length > 11 then safeToInt (rowGet row 11) else none) with
  | some v => v
  | none => sumFallback row

/-- The answered flag of a Part B/C row: any checkmark among columns 5/7/9. -/
def answeredBCOf (row : List String) : Bool :=
  [5, 7, 9].any (fun i => decide (row.length > i) && isCheckmark (rowGet row i))

/-- The Part B/C section of the row loop (lines 161-182): question number
from column 3, sub-part from column 4, total from column 11 with the summed
fallback, answered if any of columns 5/7/9 is a checkmark; a duplicate
`\x7bquestion\x7d\x7bsubpart\x7d` identifier is rejected. -/
def stepB (st : MarksState) (row : List String) : MarksState :=
  match (if row.length > 3 then safeToInt (rowGet row 3) else none) with
  | some n =>
    if 11 ≤ n ∧ n ≤ 16 ∧ (subPartOf row = "a" ∨ subPartOf row = "b") then
      pushBC st (toString n ++ subPartOf row) (totalMarksOf row) (answeredBCOf row)
    else st
  | none => st

/-- The totals section of the row loop (lines 185-192); an empty row raises
`IndexError` at `row[0]`, caught by the guard, leaving the state unchanged. -/
def stepTot (st : MarksState) (row : List String) : MarksState :=
  match row with
  | [] => st
  | r0 :: _ =>
    if r0 ≠ "" ∧ strInfix "total" (strLower r0) then
      let t1 := if row.length > 2 then some (safeToInt (rowGet row 2)) else st.totals.partATotal
      let t2 := if row.length > 11 then some (safeToInt (rowGet row 11)) else st.totals.partBCTotal
      { st with totals := { st.totals with partATotal := t1, partBCTotal := t2 } }
    else st

/-- One data row: the three independently guarded sections in order. -/
def stepRow (st : MarksState) (row : List String) : MarksState :=
  stepTot (stepB (stepA st row) row) row

/-- The initial `final_data` accumulator (lines 128-138). -/
def initState : MarksState :=
  { partA := [], partBC := [],
    totals := { partATotal := none, partBCTotal := none, grandTotal := none },
    meta := { totalA := 0, answeredA := 0, totalBC := 0, answeredBC := 0 } }

/-- `max(tables, key=len)`: the first table of maximal row count. -/
def largestTable (t : List (List String)) (ts : List (List (List String))) : List (List String) :=
  ts.foldl (fun best x => if x.length > best.length then x else best) t

/-- `extract_marks` (lines 122-201): early return on no tables, then scan the
data rows (header skipped) of the largest table, finally computing the grand
total from the two part totals (`None` counting as 0). -/
def extractMarks (tables : List (List (List String))) : MarksResult :=
  match tables with
  | [] =>
    { partA := [], partBC := [],
      totals := { partATotal := none, partBCTotal := none, grandTotal := none },
      metadata := none }
  | t :: ts =>
    let mt := largestTable t ts
    let st := (mt.drop 1).foldl stepRow initState
    { partA := st.partA, partBC := st.partBC,
      totals := { st.totals with
        grandTotal := some (((st.totals.partATotal.getD none).getD 0) +
                            ((st.totals.partBCTotal.getD none).getD 0)) },
      metadata := some st.meta }

/-! ## Helper lemmas -/

/-- A property preserved by each step of a left fold holds of its result. -/
theorem foldlPreserves {α β : Type} (f : β → α → β) (P : β → Prop)
    (h : ∀ b a, P b → P (f b a)) :
    ∀ (l : List α) (b : β), P b → P (l.foldl f b) := by
  intro l
  induction l with
  | nil => intro b hb; exact hb
  | cons a t ih => intro b hb; exact ih (f b a) (h b a hb)

theorem lookupKV_cons {α : Type} (kv : String × α) (t : List (String × α)) (k : String) :
    lookupKV (kv :: t) k = if kv.1 = k then some kv.2 else lookupKV t k := by
  by_cases h : kv.1 = k
  · simp [lookupKV, List.find?, h]
  · simp only [lookupKV, List.find?]
    have : (kv.1 == k) = false := by simp [h]
    simp [this, h, lookupKV]

theorem lookupKV_insertKV (d : List (String × JVal)) (k0 k : String) (v : JVal) :
    lookupKV (insertKV d k0 v) k = if k0 = k then some v else lookupKV d k := by
  induction d with
  | nil => simp [insertKV, lookupKV_cons, lookupKV]
  | cons kv t ih =>
    by_cases h : kv.1 = k0
    · simp only [insertKV, if_pos h]
      rw [lookupKV_cons, lookupKV_cons]
      by_cases hk : k0 = k
      · simp [hk]
      · have : kv.1 ≠ k := fun hc => hk (h ▸ hc)
        simp [hk, this]
    · simp only [insertKV, if_neg h]
      rw [lookupKV_cons, lookupKV_cons, ih]
      by_cases hk : kv.1 = k
      · have : k0 ≠ k := fun hc => h (hc ▸ hk ▸ rfl)
        simp [hk, this]
      · simp [hk]

theorem lookupLast_cons {α : Type} (kv : String × α) (t : List (String × α)) (k : String) :
    lookupLast (kv :: t) k =
      match lookupLast t k with
      | some v => some v
      | none => if kv.1 = k then some kv.2 else none := rfl

theorem lookupKV_dictUpdate (r d : List (String × JVal)) (k : String) :
    lookupKV (dictUpdate d r) k =
      match lookupLast r k with
      | some v => some v
      | none => lookupKV d k := by
  induction r generalizing d with
  | nil => rfl
  | cons kv t ih =>
    show lookupKV (dictUpdate (insertKV d kv.1 kv.2) t) k = _
    rw [ih, lookupLast_cons]
    cases hl : lookupLast t k with
    | some v => rfl
    | none =>
      rw [lookupKV_insertKV]
      by_cases h : kv.1 = k <;> simp [h]

theorem lookupLast_append {α : Type} (a b : List (String × α)) (k : String) :
    lookupLast (a ++ b) k =
      match lookupLast b k with
      | some v => some v
      | none => lookupLast a k := by
  induction a with
  | nil => rw [List.nil_append]; cases h : lookupLast b k <;> simp [h, lookupLast]
  | cons kv t ih =>
    rw [List.cons_append, lookupLast_cons, ih, lookupLast_cons]
    cases lookupLast b k <;> cases lookupLast t k <;> simp

theorem lookupKV_mergedFields (results : List (List (String × JVal))) (k : String) :
    lookupKV (mergedFields results) k = lookupLast results.flatten k := by
  have main : ∀ (rs : List (List (String × JVal))) (d : List (String × JVal)),
      lookupKV (rs.foldl dictUpdate d) k =
        match lookupLast rs.flatten k with
        | some v => some v
        | none => lookupKV d k := by
    intro rs
    induction rs with
    | nil => intro d; rfl
    | cons r t ih =>
      intro d
      show lookupKV (t.foldl dictUpdate (dictUpdate d r)) k = _
      rw [ih, List.flatten_cons, lookupLast_append]
      cases lookupLast t.flatten k with
      | some v => rfl
      | none => rw [lookupKV_dictUpdate]
  rw [show mergedFields results = results.foldl dictUpdate [] from rfl, main]
  cases lookupLast results.flatten k <;> rfl

theorem lookupKV_normalizeFields (d : List (String × JVal)) (k : String) :
    lookupKV (normalizeFields d) k = (lookupKV d k).map normVal := by
  induction d with
  | nil => rfl
  | cons kv t ih =>
    show lookupKV ((kv.1, normVal kv.2) :: normalizeFields t) k = _
    rw [lookupKV_cons, lookupKV_cons]
    by_cases h : kv.1 = k <;> simp [h, ih]

theorem foldl_append_emit (fields : List RawField) :
    ∀ acc : List Target,
      fields.foldl (fun acc f => acc ++ emitField f) acc = acc ++ fields.flatMap emitField := by
  induction fields with
  | nil => intro acc; simp
  | cons f t ih => intro acc; rw [List.foldl_cons, ih, List.flatMap_cons, List.append_assoc]

theorem emitField_name_ne (f : RawField) : ∀ t ∈ emitField f, t.fieldName ≠ "" := by
  intro t ht
  unfold emitField at ht
  by_cases h1 : strTrim (f.fieldName.getD "") = ""
  · simp [h1] at ht
  · rw [if_neg h1] at ht
    by_cases h2 : f.fieldType.getD "field" = "field"
    · rw [if_pos h2, List.mem_singleton] at ht
      subst ht; exact h1
    · rw [if_neg h2] at ht
      by_cases h3 : f.fieldType.getD "field" = "table"
      · rw [if_pos h3] at ht
        cases hc : f.tableData.getD [] with
        | nil => rw [hc] at ht; cases ht
        | cons c0 crest =>
          rw [hc] at ht
          obtain ⟨c, _, hsome⟩ := List.mem_filterMap.mp ht
          by_cases h4 : strTrim (c.fieldName.getD "") = ""
          · simp [h4] at hsome
          · rw [if_neg h4] at hsome
            have := Option.some.inj hsome
            subst this; exact h4
      · rw [if_neg h3] at ht; cases ht

theorem containsKey_append {α : Type} (a b : List (String × α)) (k : String) :
    containsKey (a ++ b) k = (containsKey a k || containsKey b k) := by
  simp [containsKey, List.any_append]

theorem containsKey_fillMissing (fields : List Target) (kvs : List (String × JVal))
    (f : Target) (hf : f ∈ fields) :
    containsKey (fillMissing fields kvs) f.fieldName = true := by
  induction fields generalizing kvs with
  | nil => cases hf
  | cons g rest ih =>
    show containsKey
      (rest.foldl (fun acc f =>
        if containsKey acc f.fieldName then acc else acc ++ [(f.fieldName, JVal.null)])
        (if containsKey kvs g.fieldName then kvs else kvs ++ [(g.fieldName, JVal.null)])) f.fieldName = true
    rcases List.mem_cons.mp hf with hfg | hfr
    · subst hfg
      refine foldlPreserves _ (fun d => containsKey d f.fieldName = true) ?_ rest _ ?_
      · intro d t hd
        by_cases h : containsKey d t.fieldName = true
        · rw [if_pos h]; exact hd
        · rw [if_neg h, containsKey_append, hd, Bool.true_or]
      · by_cases h : containsKey kvs f.fieldName = true
        · rw [if_pos h]; exact h
        · rw [if_neg h]
          show containsKey (kvs ++ [(f.fieldName, JVal.null)]) f.fieldName = true
          rw [containsKey_append]
          simp [containsKey]
    · exact ih _ hfr

theorem mapOptionAll_backfill_obj (fields : List Target) (rows : List (List (String × JVal))) :
    mapOptionAll (backfillMissingE fields) (rows.map JVal.obj)
      = some (rows.map (fun r => JVal.obj (fillMissing fields r))) := by
  induction rows with
  | nil => rfl
  | cons r t ih => simp [mapOptionAll, ih, backfillMissingE]

theorem tableFixE_wrapped (table : String) (fields : List Target)
    (pkvs : List (String × JVal)) (rows : List (List (String × JVal)))
    (h : lookupKV pkvs table = some (JVal.arr (rows.map JVal.obj))) :
    tableFixE table fields (JVal.obj pkvs)
      = some (JVal.arr (rows.map (fun r => JVal.obj (fillMissing fields r)))) := by
  show tableFixObj table fields pkvs = _
  unfold tableFixObj
  rw [h]
  simp [tableFixVal, mapOptionAll_backfill_obj]

theorem groupPages_of_all_empty (chunks : List Chunk)
    (h : ∀ c ∈ chunks, extractTextFromChunk c = "") :
    groupPages chunks = [] := by
  have main : ∀ (l : List Chunk) (acc : List (Nat × List String)),
      (∀ c ∈ l, extractTextFromChunk c = "") → l.foldl groupStep acc = acc := by
    intro l
    induction l with
    | nil => intro acc _; rfl
    | cons c t ih =>
      intro acc hall
      rw [List.foldl_cons]
      have hc : extractTextFromChunk c = "" := hall c (List.mem_cons_self c t)
      have : groupStep acc c = acc := by simp [groupStep, hc]
      rw [this]
      exact ih acc (fun x hx => hall x (List.mem_cons_of_mem c hx))
  exact main chunks [] h

theorem mem_insertSorted (x a : Nat) (l : List Nat) :
    a ∈ insertSorted x l ↔ a = x ∨ a ∈ l := by
  induction l with
  | nil => simp [insertSorted]
  | cons y ys ih =>
    by_cases h : x ≤ y
    · simp [insertSorted, h]
    · simp only [insertSorted, if_neg h, List.mem_cons, ih]
      tauto

theorem sorted_insertSorted (x : Nat) (l : List Nat)
    (h : List.Pairwise (· ≤ ·) l) :
    List.Pairwise (· ≤ ·) (insertSorted x l) := by
  induction l with
  | nil => simp [insertSorted]
  | cons y ys ih =>
    rcases List.pairwise_cons.mp h with ⟨hy, hys⟩
    by_cases hxy : x ≤ y
    · rw [insertSorted, if_pos hxy]
      refine List.pairwise_cons.mpr ⟨?_, h⟩
      intro b hb
      rcases List.mem_cons.mp hb with hb | hb
      · exact hb ▸ hxy
      · exact le_trans hxy (hy b hb)
    · rw [insertSorted, if_neg hxy]
      refine List.pairwise_cons.mpr ⟨?_, ih hys⟩
      intro b hb
      rcases (mem_insertSorted x b ys).mp hb with hb | hb
      · exact hb ▸ Nat.le_of_not_le hxy
      · exact hy b hb

theorem perm_insertSorted (x : Nat) (l : List Nat) :
    (insertSorted x l).Perm (x :: l) := by
  induction l with
  | nil => simp [insertSorted]
  | cons y ys ih =>
    by_cases h : x ≤ y
    · rw [insertSorted, if_pos h]
    · rw [insertSorted, if_neg h]
      exact (ih.cons y).trans (List.Perm.swap x y ys)

theorem sorted_sortNat (l : List Nat) : List.Pairwise (· ≤ ·) (sortNat l) := by
  induction l with
  | nil => simp [sortNat]
  | cons x xs ih => exact sorted_insertSorted x (sortNat xs) ih

theorem perm_sortNat (l : List Nat) : (sortNat l).Perm l := by
  induction l with
  | nil => rfl
  | cons x xs ih => exact (perm_insertSorted x (sortNat xs)).trans (ih.cons x)

theorem keys_addToPage (d : List (Nat × List String)) (p : Nat) (t : String) :
    (addToPage d p t).map Prod.fst =
      if p ∈ d.map Prod.fst then d.map Prod.fst else d.map Prod.fst ++ [p] := by
  induction d with
  | nil => simp [addToPage]
  | cons qts rest ih =>
    obtain ⟨q, ts⟩ := qts
    by_cases h : q = p
    · simp [addToPage, h]
    · have hne : p ≠ q := fun hc => h hc.symm
      simp only [addToPage, if_neg h, List.map_cons, ih, List.mem_cons]
      by_cases hp : p ∈ rest.map Prod.fst
      · simp [hp, hne]
      · simp [hp, hne]

theorem nodup_keys_addToPage (d : List (Nat × List String)) (p : Nat) (t : String)
    (h : (d.map Prod.fst).Nodup) : ((addToPage d p t).map Prod.fst).Nodup := by
  rw [keys_addToPage]
  by_cases hp : p ∈ d.map Prod.fst
  · simpa [hp]
  · simp only [hp, if_false]
    rw [List.nodup_append]
    refine ⟨h, List.nodup_singleton p, ?_⟩
    intro a ha hap
    rw [List.mem_singleton] at hap
    exact hp (hap ▸ ha)

theorem nodup_pageKeys (chunks : List Chunk) : (pageKeys chunks).Nodup := by
  refine foldlPreserves groupStep (fun d => (d.map Prod.fst).Nodup) ?_ chunks [] (by simp)
  intro d c hd
  unfold groupStep
  by_cases h : extractTextFromChunk c = ""
  · simpa [h]
  · simpa [h] using nodup_keys_addToPage d (getPageNumber c) (extractTextFromChunk c) hd

theorem dedupAux_spec (l : List String) :
    ∀ acc : List String, acc.Nodup →
      ∃ r : List String, dedupAux l acc = acc ++ r ∧ r.Sublist l ∧ (acc ++ r).Nodup ∧
        (∀ x ∈ l, x ∈ acc ∨ x ∈ r) ∧ (∀ y ∈ r, y ∉ acc) := by
  induction l with
  | nil =>
    intro acc hacc
    exact ⟨[], by simp [dedupAux], List.Sublist.refl [], by simpa using hacc, by simp, by simp⟩
  | cons x xs ih =>
    intro acc hacc
    by_cases hx : x ∈ acc
    · obtain ⟨r, h1, h2, h3, h4, h5⟩ := ih acc hacc
      refine ⟨r, by simpa [dedupAux, hx] using h1, h2.cons x, h3, ?_, h5⟩
      intro a ha
      rcases List.mem_cons.mp ha with ha | ha
      · exact Or.inl (ha ▸ hx)
      · exact h4 a ha
    · have hacc2 : (acc ++ [x]).Nodup := by
        rw [List.nodup_append]
        refine ⟨hacc, List.nodup_singleton x, ?_⟩
        intro a ha hax
        rw [List.mem_singleton] at hax
        exact hx (hax ▸ ha)
      obtain ⟨r, h1, h2, h3, h4, h5⟩ := ih (acc ++ [x]) hacc2
      refine ⟨x :: r, ?_, h2.cons₂ x, ?_, ?_, ?_⟩
      · rw [show dedupAux (x :: xs) acc = dedupAux xs (acc ++ [x]) by simp [dedupAux, hx], h1,
          List.append_assoc]
        rfl
      · rw [show acc ++ x :: r = (acc ++ [x]) ++ r by simp]
        exact h3
      · intro a ha
        rcases List.mem_cons.mp ha with ha | ha
        · exact Or.inr (ha ▸ List.mem_cons_self x r)
        · rcases h4 a ha with hmem | hmem
          · rcases List.mem_append.mp hmem with hmem | hmem
            · exact Or.inl hmem
            · exact Or.inr (List.mem_cons.mpr (Or.inl (List.mem_singleton.mp hmem)))
          · exact Or.inr (List.mem_cons_of_mem x hmem)
      · intro y hy
        rcases List.mem_cons.mp hy with hy | hy
        · exact hy ▸ hx
        · intro hyacc
          exact h5 y hy (List.mem_append.mpr (Or.inl hyacc))

theorem dedupFirst_spec (l : List String) :
    (dedupFirst l).Sublist l ∧ (dedupFirst l).Nodup ∧ ∀ x ∈ l, x ∈ dedupFirst l := by
  obtain ⟨r, h1, h2, h3, h4, _⟩ := dedupAux_spec l [] (List.nodup_nil)
  rw [List.nil_append] at h1 h3
  rw [show dedupFirst l = dedupAux l [] from rfl, h1]
  exact ⟨h2, h3, fun x hx => (h4 x hx).resolve_left (by simp)⟩

theorem pushA_partBC (st : MarksState) (q : String) (mark : Option Nat) (ans : Bool) :
    (pushA st q mark ans).partBC = st.partBC := rfl

theorem stepA_partBC (st : MarksState) (row : List String) :
    (stepA st row).partBC = st.partBC := by
  unfold stepA
  cases hq : (if row.length > 0 then safeToInt (rowGet row 0) else none) with
  | none => rfl
  | some n =>
    dsimp only
    by_cases hc : 1 ≤ n ∧ n ≤ 10
    · rw [if_pos hc]; rfl
    · rw [if_neg hc]

theorem stepTot_partA (st : MarksState) (row : List String) :
    (stepTot st row).partA = st.partA := by
  unfold stepTot
  cases row with
  | nil => rfl
  | cons r0 rest =>
    dsimp only
    by_cases hc : r0 ≠ "" ∧ strInfix "total" (strLower r0) = true
    · rw [if_pos hc]
    · rw [if_neg hc]

theorem stepTot_partBC (st : MarksState) (row : List String) :
    (stepTot st row).partBC = st.partBC := by
  unfold stepTot
  cases row with
  | nil => rfl
  | cons r0 rest =>
    dsimp only
    by_cases hc : r0 ≠ "" ∧ strInfix "total" (strLower r0) = true
    · rw [if_pos hc]
    · rw [if_neg hc]

theorem stepTot_meta (st : MarksState) (row : List String) :
    (stepTot st row).meta = st.meta := by
  unfold stepTot
  cases row with
  | nil => rfl
  | cons r0 rest =>
    dsimp only
    by_cases hc : r0 ≠ "" ∧ strInfix "total" (strLower r0) = true
    · rw [if_pos hc]
    · rw [if_neg hc]

theorem pushBC_partA (st : MarksState) (qid : String) (tm : Nat) (ans : Bool) :
    (pushBC st qid tm ans).partA = st.partA := by
  unfold pushBC
  split_ifs <;> rfl

theorem stepB_partA (st : MarksState) (row : List String) :
    (stepB st row).partA = st.partA := by
  unfold stepB
  cases hq : (if row.length > 3 then safeToInt (rowGet row 3) else none) with
  | none => rfl
  | some n =>
    dsimp only
    by_cases hc : 11 ≤ n ∧ n ≤ 16 ∧ (subPartOf row = "a" ∨ subPartOf row = "b")
    · rw [if_pos hc, pushBC_partA]
    · rw [if_neg hc]

/-- The duplicate-identifier invariant of the Part B/C list, preserved by the
guarded append: an entry is appended only after the linear scan found no
entry with the same identifier. -/
theorem nodupBC_pushBC (st : MarksState) (qid : String) (tm : Nat) (ans : Bool)
    (h : (st.partBC.map (fun e => e.qNo)).Nodup) :
    ((pushBC st qid tm ans).partBC.map (fun e => e.qNo)).Nodup := by
  unfold pushBC
  by_cases hdup : (st.partBC.any fun e => e.qNo == qid) = true
  · rw [if_pos hdup]; exact h
  · rw [if_neg hdup]
    show ((st.partBC ++ [({ qNo := qid, marks := some tm, answered := ans } : MarkEntry)]).map
      (fun e => e.qNo)).Nodup
    rw [List.map_append, List.nodup_append]
    refine ⟨h, by simp, ?_⟩
    intro a ha hqid
    rw [List.map_singleton, List.mem_singleton] at hqid
    obtain ⟨e, he, hea⟩ := List.mem_map.mp ha
    have hfalse := List.any_eq_false.mp (Bool.eq_false_iff.mpr hdup) e he
    exact hfalse (beq_iff_eq.mpr (hea.trans hqid))

theorem nodupBC_stepB (st : MarksState) (row : List String)
    (h : (st.partBC.map (fun e => e.qNo)).Nodup) :
    ((stepB st row).partBC.map (fun e => e.qNo)).Nodup := by
  unfold stepB
  cases hq : (if row.length > 3 then safeToInt (rowGet row 3) else none) with
  | none => exact h
  | some n =>
    dsimp only
    by_cases hc : 11 ≤ n ∧ n ≤ 16 ∧ (subPartOf row = "a" ∨ subPartOf row = "b")
    · rw [if_pos hc]; exact nodupBC_pushBC _ _ _ _ h
    · rw [if_neg hc]; exact h

theorem nodupBC_stepRow (st : MarksState) (row : List String)
    (h : (st.partBC.map (fun e => e.qNo)).Nodup) :
    ((stepRow st row).partBC.map (fun e => e.qNo)).Nodup := by
  unfold stepRow
  rw [stepTot_partBC]
  exact nodupBC_stepB _ row (by rw [stepA_partBC]; exact h)

/-- The counter consistency invariant: the four metadata counters track the
lengths and answered counts of the two entry lists. -/
def metaInv (st : MarksState) : Prop :=
  st.meta.totalA = st.partA.length ∧
  st.meta.answeredA = st.partA.countP (fun e => e.answered) ∧
  st.meta.totalBC = st.partBC.length ∧
  st.meta.answeredBC = st.partBC.countP (fun e => e.answered)

theorem metaInv_pushA (st : MarksState) (q : String) (mark : Option Nat) (ans : Bool)
    (h : metaInv st) : metaInv (pushA st q mark ans) := by
  obtain ⟨h1, h2, h3, h4⟩ := h
  refine ⟨?_, ?_, h3, h4⟩
  · show st.meta.totalA + 1
      = (st.partA ++ [({ qNo := q, marks := mark, answered := ans } : MarkEntry)]).length
    simp [h1]
  · show st.meta.answeredA + (if ans then 1 else 0)
      = (st.partA ++ [({ qNo := q, marks := mark, answered := ans } : MarkEntry)]).countP
          (fun e => e.answered)
    rw [List.countP_append, h2]
    cases ans <;> simp [List.countP_cons, List.countP_nil]

theorem metaInv_stepA (st : MarksState) (row : List String) (h : metaInv st) :
    metaInv (stepA st row) := by
  unfold stepA
  cases hq : (if row.length > 0 then safeToInt (rowGet row 0) else none) with
  | none => exact h
  | some n =>
    dsimp only
    by_cases hc : 1 ≤ n ∧ n ≤ 10
    · rw [if_pos hc]; exact metaInv_pushA _ _ _ _ h
    · rw [if_neg hc]; exact h

theorem metaInv_pushBC (st : MarksState) (qid : String) (tm : Nat) (ans : Bool)
    (h : metaInv st) : metaInv (pushBC st qid tm ans) := by
  obtain ⟨h1, h2, h3, h4⟩ := h
  unfold pushBC
  by_cases hdup : (st.partBC.any fun e => e.qNo == qid) = true
  · rw [if_pos hdup]; exact ⟨h1, h2, h3, h4⟩
  · rw [if_neg hdup]
    refine ⟨h1, h2, ?_, ?_⟩
    · show st.meta.totalBC + 1
        = (st.partBC ++ [({ qNo := qid, marks := some tm, answered := ans } : MarkEntry)]).length
      simp [h3]
    · show st.meta.answeredBC + (if ans then 1 else 0)
        = (st.partBC ++ [({ qNo := qid, marks := some tm, answered := ans } : MarkEntry)]).countP
            (fun e => e.answered)
      rw [List.countP_append, h4]
      cases ans <;> simp [List.countP_cons, List.countP_nil]

theorem metaInv_stepB (st : MarksState) (row : List String) (h : metaInv st) :
    metaInv (stepB st row) := by
  unfold stepB
  cases hq : (if row.length > 3 then safeToInt (rowGet row 3) else none) with
  | none => exact h
  | some n =>
    dsimp only
    by_cases hc : 11 ≤ n ∧ n ≤ 16 ∧ (subPartOf row = "a" ∨ subPartOf row = "b")
    · rw [if_pos hc]; exact metaInv_pushBC _ _ _ _ h
    · rw [if_neg hc]; exact h

theorem metaInv_stepTot (st : MarksState) (row : List String) (h : metaInv st) :
    metaInv (stepTot st row) := by
  obtain ⟨h1, h2, h3, h4⟩ := h
  refine ⟨?_, ?_, ?_, ?_⟩ <;>
    rw [stepTot_meta] <;>
    first
      | (rw [stepTot_partA]; assumption)
      | (rw [stepTot_partBC]; assumption)

theorem metaInv_stepRow (st : MarksState) (row : List String) (h : metaInv st) :
    metaInv (stepRow st row) := by
  unfold stepRow
  exact metaInv_stepTot _ row (metaInv_stepB _ row (metaInv_stepA st row h))

/-! ## Concrete data for witnesses and counterexamples -/

/-- A chunk carrying a metadata page number and model-refined text. -/
def mkChunk (p : Nat) (t : String) : Chunk :=
  { llm := some t, content := none, segments := none, html := none, pageNumber := some p }

/-- A chunk with no content in any representation. -/
def emptyChunk : Chunk :=
  { llm := none, content := none, segments := none, html := none, pageNumber := none }

/-- Declared flat field target named Name. -/
def tName : Target :=
  { fieldType := "field", tableName := none, fieldName := "Name",
    fieldDatatype := "String", fieldDescription := "", fieldExample := "" }

/-- Declared flat field target named Age. -/
def tAge : Target :=
  { fieldType := "field", tableName := none, fieldName := "Age",
    fieldDatatype := "String", fieldDescription := "", fieldExample := "" }

/-- Declared column col1 of table T. -/
def tCol1 : Target :=
  { fieldType := "table", tableName := some "T", fieldName := "col1",
    fieldDatatype := "String", fieldDescription := "", fieldExample := "" }

/-- Declared column col2 of table T. -/
def tCol2 : Target :=
  { fieldType := "table", tableName := some "T", fieldName := "col2",
    fieldDatatype := "String", fieldDescription := "", fieldExample := "" }

/-- A raw schema entry with no `fieldType` and an untrimmed name. -/
def demoRawField : RawField :=
  { fieldType := none, fieldName := some " Name ", fieldDatatype := none,
    fieldDescription := none, fieldExample := none, tableData := none }

/-- A raw table entry with an empty column list. -/
def demoRawEmptyTable : RawField :=
  { fieldType := some "table", fieldName := some "T", fieldDatatype := none,
    fieldDescription := none, fieldExample := none, tableData := some [] }

/-- A raw table entry with one named column and one blank-named column. -/
def demoRawTable : RawField :=
  { fieldType := some "table", fieldName := some "T", fieldDatatype := none,
    fieldDescription := none, fieldExample := none,
    tableData := some
      [{ fieldName := some "col1", fieldDatatype := none, fieldDescription := none,
         fieldExample := none },
       { fieldName := some " ", fieldDatatype := none, fieldDescription := none,
         fieldExample := none }] }

/-- A three-entry raw schema exercising every normalization rule. -/
def demoSchema : List RawField := [demoRawField, demoRawEmptyTable, demoRawTable]

/-- Three chunks for page 1 whose fragments arrive as A, B, A. -/
def c5demo : List Chunk := [mkChunk 1 "A", mkChunk 1 "B", mkChunk 1 "A"]

/-- One chunk for page 2 with text B. -/
def c6demo : List Chunk := [mkChunk 2 "B"]

/-- A marks table whose two data rows resolve to the same identifier 11a
with different marks (10 first, 7 second). -/
def c9dup : List (List String) :=
  [["h"],
   ["", "", "", "11", "a", "", "", "", "", "", "", "10"],
   ["", "", "", "11", "a", "", "", "", "", "", "", "7"]]

/-! ## Claims -/

/-- C1 (counterexample): schema completeness does NOT hold in all three
merge modes.  In table-map mode, a response whose rows are not wrapped under
the table name (`\x7b"col1": "x"\x7d` for table T with declared columns col1,
col2) is stored without back-fill, so the merged row lacks the declared key
col2; and the unified mode performs no back-fill at all, so a parsed response
omitting the declared field Age yields a record without the key Age. -/
theorem c1_schema_completeness_cex :
    tableMerge "T" [tCol1, tCol2] "\x7b\"col1\": \"x\"\x7d"
      = JVal.arr [JVal.obj [("col1", JVal.str "x")]]
  ∧ containsKey [("col1", JVal.str "x")] tCol2.fieldName = false
  ∧ mergeUnified "\x7b\"Name\": \"Bob\"\x7d" = JVal.obj [("Name", JVal.str "Bob")]
  ∧ containsKey [("Name", JVal.str "Bob")] tAge.fieldName = false :=
  ⟨rfl, rfl, rfl, rfl⟩

/-- C1 (amended): in field-list mode, a successfully parsed JSON object is
back-filled so that every declared field name appears as a key (missing
values as null); in table-map mode, when the parsed response wraps a list of
row objects under the table name, every row is back-filled with every
declared column.  (Unified mode and unwrapped table responses perform no
back-fill — see the counterexample.) -/
theorem c1_schema_completeness :
    (∀ (fields : List Target) (value : String) (kvs : List (String × JVal)),
        parseJson (extractRegion (strTrim value)) = some (JVal.obj kvs) →
        forfieldsParse fields value = JVal.obj (fillMissing fields kvs))
  ∧ (∀ (fields : List Target) (kvs : List (String × JVal)) (f : Target),
        f ∈ fields → containsKey (fillMissing fields kvs) f.fieldName = true)
  ∧ (∀ (table : String) (fields : List Target) (pkvs : List (String × JVal))
        (rows : List (List (String × JVal))),
        lookupKV pkvs table = some (JVal.arr (rows.map JVal.obj)) →
        tableFixE table fields (JVal.obj pkvs)
          = some (JVal.arr (rows.map (fun r => JVal.obj (fillMissing fields r))))) := by
  refine ⟨?_, containsKey_fillMissing, tableFixE_wrapped⟩
  intro fields value kvs h
  simp only [forfieldsParse]
  rw [h]
  rfl

/-- C1 (witness): the amended theorem applied to the declared fields (Name,
Age) with response `\x7b"Name": "Bob"\x7d`, and to table T with declared
columns (col1, col2) and a response wrapped under T. -/
theorem c1_schema_completeness_witness :
    parseJson (extractRegion (strTrim "\x7b\"Name\": \"Bob\"\x7d"))
      = some (JVal.obj [("Name", JVal.str "Bob")])
  ∧ forfieldsParse [tName, tAge] "\x7b\"Name\": \"Bob\"\x7d"
      = JVal.obj (fillMissing [tName, tAge] [("Name", JVal.str "Bob")])
  ∧ tAge ∈ [tName, tAge]
  ∧ containsKey (fillMissing [tName, tAge] [("Name", JVal.str "Bob")]) tAge.fieldName = true
  ∧ lookupKV [("T", JVal.arr [JVal.obj [("col1", JVal.str "x")]])] "T"
      = some (JVal.arr ([[("col1", JVal.str "x")]].map JVal.obj))
  ∧ tableFixE "T" [tCol1, tCol2] (JVal.obj [("T", JVal.arr [JVal.obj [("col1", JVal.str "x")]])])
      = some (JVal.arr ([[("col1", JVal.str "x")]].map
          (fun r => JVal.obj (fillMissing [tCol1, tCol2] r)))) := by
  have h1 : parseJson (extractRegion (strTrim "\x7b\"Name\": \"Bob\"\x7d"))
      = some (JVal.obj [("Name", JVal.str "Bob")]) := rfl
  have h2 : tAge ∈ [tName, tAge] := by decide
  have h3 : lookupKV [("T", JVal.arr [JVal.obj [("col1", JVal.str "x")]])] "T"
      = some (JVal.arr ([[("col1", JVal.str "x")]].map JVal.obj)) := rfl
  exact ⟨h1, c1_schema_completeness.1 [tName, tAge] _ _ h1, h2,
    c1_schema_completeness.2.1 [tName, tAge] [("Name", JVal.str "Bob")] tAge h2, h3,
    c1_schema_completeness.2.2 "T" [tCol1, tCol2] _ _ h3⟩

/-- C2 (counterexample): when a brace region exists but is not valid JSON,
the fallback record holds the extracted brace region, not the original
response text, so the fallback is not `\x7b"raw": <the raw response>\x7d`. -/
theorem c2_json_fallback_cex :
    mergeUnified "note \x7boops\x7d end" = JVal.obj [("raw", JVal.str "\x7boops\x7d")]
  ∧ "\x7boops\x7d" ≠ "note \x7boops\x7d end" :=
  ⟨rfl, by decide⟩

/-- C2 (amended): for every raw response, the merger parses the extracted
brace region (first opening brace to last closing brace, prose tolerated) and
on parse failure returns `\x7b"raw": r\x7d` where `r` is that extracted
region (the original text only when no brace region exists), never raising;
including the two specified examples. -/
theorem c2_json_fallback : ∀ raw : String,
    (parseJson (extractRegion raw) = none →
      mergeUnified raw = JVal.obj [("raw", JVal.str (extractRegion raw))])
  ∧ (∀ v : JVal, parseJson (extractRegion raw) = some v → mergeUnified raw = v)
  ∧ mergeUnified "Here is the result: \x7b\"a\":1\x7d Thanks!" = JVal.obj [("a", JVal.num 1)]
  ∧ extractRegion "Here is the result: \x7b\"a\":1\x7d Thanks!" = "\x7b\"a\":1\x7d"
  ∧ mergeUnified "not json at all" = JVal.obj [("raw", JVal.str "not json at all")] := by
  intro raw
  refine ⟨?_, ?_, rfl, rfl, rfl⟩
  · intro h
    simp only [mergeUnified]
    rw [h]
  · intro v h
    simp only [mergeUnified]
    rw [h]

/-- C2 (witness): the fallback branch of the amended theorem at the
brace-free response "not json at all". -/
theorem c2_json_fallback_witness :
    parseJson (extractRegion "not json at all") = none
  ∧ mergeUnified "not json at all" = JVal.obj [("raw", JVal.str (extractRegion "not json at all"))] := by
  have h : parseJson (extractRegion "not json at all") = none := rfl
  exact ⟨h, (c2_json_fallback "not json at all").1 h⟩

/-- C3: an empty chunk sequence, or one in which every chunk yields empty
extracted text, assembles to the empty document with page count 0, without
raising. -/
theorem c3_empty_assembly :
    assemble [] = ("", 0)
  ∧ ∀ chunks : List Chunk,
      (∀ c ∈ chunks, extractTextFromChunk c = "") → assemble chunks = ("", 0) := by
  refine ⟨rfl, ?_⟩
  intro chunks h
  by_cases hc : chunks = []
  · subst hc; rfl
  · have hg := groupPages_of_all_empty chunks h
    unfold assemble
    rw [if_neg hc]
    have hblocks : assembleBlocks chunks = [] := by
      unfold assembleBlocks pageKeys
      rw [hg]
      rfl
    rw [hblocks]
    rfl

/-- C3 (witness): a single chunk with no content in any representation. -/
theorem c3_empty_assembly_witness :
    extractTextFromChunk emptyChunk = "" ∧ assemble [emptyChunk] = ("", 0) :=
  ⟨rfl, c3_empty_assembly.2 [emptyChunk] (by decide)⟩

/-- C4: whatever the arrival order of the chunks, the labelled page blocks of
the assembled document carry strictly ascending page numbers. -/
theorem c4_page_order : ∀ chunks : List Chunk,
    List.Pairwise (· < ·) ((assembleBlocks chunks).map Prod.fst) := by
  intro chunks
  have hmap : (assembleBlocks chunks).map Prod.fst = sortNat (pageKeys chunks) := by
    unfold assembleBlocks
    rw [List.map_map]
    exact List.map_id _
  rw [hmap]
  exact List.Sorted.lt_of_le (sorted_sortNat (pageKeys chunks))
    ((perm_sortNat (pageKeys chunks)).symm.nodup (nodup_pageKeys chunks))

/-- C5: within every assembled page, the fragments used are the page's
arrival-order fragments deduplicated by exact string equality with first
occurrences kept: the deduplicated list is duplicate-free, is a subsequence
of the arrival-order list (hence keeps first-seen order), and still covers
every arriving fragment. -/
theorem c5_dedup_first_seen : ∀ (chunks : List Chunk) (pb : Nat × String),
    pb ∈ assembleBlocks chunks →
      pb.2 = strTrim (strJoin "\n\n" (dedupFirst (pageFrags chunks pb.1)))
    ∧ (dedupFirst (pageFrags chunks pb.1)).Sublist (pageFrags chunks pb.1)
    ∧ (dedupFirst (pageFrags chunks pb.1)).Nodup
    ∧ (pageFrags chunks pb.1).all
        (fun s => decide (s ∈ dedupFirst (pageFrags chunks pb.1))) = true := by
  intro chunks pb h
  unfold assembleBlocks at h
  obtain ⟨p, _, hpb⟩ := List.mem_map.mp h
  obtain ⟨hs, hn, hmem⟩ := dedupFirst_spec (pageFrags chunks p)
  subst hpb
  exact ⟨rfl, hs, hn, List.all_eq_true.mpr fun x hx => decide_eq_true (hmem x hx)⟩

/-- C5 (witness): page 1 receives fragments A, B, A; the assembled page uses
A then B, with A only once. -/
theorem c5_dedup_first_seen_witness :
    ((1, "A\n\nB") ∈ assembleBlocks c5demo)
  ∧ ("A\n\nB" = strTrim (strJoin "\n\n" (dedupFirst (pageFrags c5demo 1)))
    ∧ (dedupFirst (pageFrags c5demo 1)).Sublist (pageFrags c5demo 1)
    ∧ (dedupFirst (pageFrags c5demo 1)).Nodup
    ∧ (pageFrags c5demo 1).all
        (fun s => decide (s ∈ dedupFirst (pageFrags c5demo 1))) = true)
  ∧ pageFrags c5demo 1 = ["A", "B", "A"]
  ∧ dedupFirst (pageFrags c5demo 1) = ["A", "B"] := by
  have h : (1, "A\n\nB") ∈ assembleBlocks c5demo := by decide
  exact ⟨h, c5_dedup_first_seen c5demo (1, "A\n\nB") h, rfl, rfl⟩

/-- C6 (counterexample): the enumerate-variant assembler of
src/my_lambda/chunkr.py labels its blocks with TWO spaces after the opening
fence, so its blocks do not have the claimed one-space-each-side format. -/
theorem c6_block_format_cex :
    mlAssemble [mkChunk 3 "A"] = ("=====  CHUNKR PAGE NUMBER 1 =====\nA", 1)
  ∧ chHasPrefix "===== CHUNKR PAGE NUMBER ".toList
      "=====  CHUNKR PAGE NUMBER 1 =====\nA".toList = false
  ∧ chHasPrefix "=====  CHUNKR PAGE NUMBER ".toList
      "=====  CHUNKR PAGE NUMBER 1 =====\nA".toList = true :=
  ⟨rfl, rfl, rfl⟩

/-- C6 (amended): in both assemblers the document is the labelled blocks
joined by exactly one blank line; each block of the page-grouping assembler
is `===== CHUNKR PAGE NUMBER <n> =====` (one space each side), a newline,
and the page text, while each block of the enumerate assembler has two
spaces after the opening fence. -/
theorem c6_block_format : ∀ chunks : List Chunk,
    (assemble chunks).1 = strJoin "\n\n" ((assembleBlocks chunks).map labelBlock)
  ∧ (∀ pb ∈ assembleBlocks chunks,
      labelBlock pb = "===== CHUNKR PAGE NUMBER " ++ toString pb.1 ++ " =====\n" ++ pb.2)
  ∧ (mlAssemble chunks).1 = strJoin "\n\n" (mlPageTexts chunks)
  ∧ (∀ e ∈ mlEntries chunks,
      mlLabel e = "=====  CHUNKR PAGE NUMBER " ++ toString e.1 ++ " =====\n" ++ e.2) := by
  intro chunks
  refine ⟨?_, fun pb _ => rfl, rfl, fun e _ => rfl⟩
  by_cases hc : chunks = []
  · subst hc; rfl
  · unfold assemble
    rw [if_neg hc]

/-- C6 (witness): the amended theorem at a single page-2 chunk. -/
theorem c6_block_format_witness :
    ((2, "B") ∈ assembleBlocks c6demo)
  ∧ labelBlock (2, "B") = "===== CHUNKR PAGE NUMBER 2 =====\nB" := by
  have h : (2, "B") ∈ assembleBlocks c6demo := by decide
  exact ⟨h, (c6_block_format c6demo).2.1 (2, "B") h⟩

/-- C7: the field-list merge iterates the raw maps in order with later maps
overwriting earlier ones on key collision — every key of the normalized
record holds the LAST written raw value, stringified and trimmed, null
becoming the empty string. -/
theorem c7_last_write_wins :
    (∀ (results : List (List (String × JVal))) (k : String),
      lookupKV (normalizeFields (mergedFields results)) k
        = (lookupLast results.flatten k).map normVal)
  ∧ normVal JVal.null = ""
  ∧ (∀ s : String, normVal (JVal.str s) = strTrim s) := by
  refine ⟨?_, rfl, fun s => rfl⟩
  intro results k
  rw [lookupKV_normalizeFields, lookupKV_mergedFields]

/-- C8: every normalized extraction target has a non-empty field name;
normalization emits targets in input order with each table's columns
interleaved in their within-table order; a table with an empty column list
produces no targets; and an absent `fieldType` behaves as "field". -/
theorem c8_schema_normalization :
    (∀ fields : List RawField, ∀ t ∈ normalizeRequestedFields fields, t.fieldName ≠ "")
  ∧ (∀ fields : List RawField, normalizeRequestedFields fields = fields.flatMap emitField)
  ∧ (∀ f : RawField, f.fieldType.getD "field" = "table" → f.tableData.getD [] = [] →
      emitField f = [])
  ∧ (∀ f : RawField, f.fieldType = none →
      emitField f = emitField { f with fieldType := some "field" }) := by
  have hflat : ∀ fields : List RawField,
      normalizeRequestedFields fields = fields.flatMap emitField := by
    intro fields
    rw [show normalizeRequestedFields fields
        = fields.foldl (fun acc f => acc ++ emitField f) [] from rfl,
      foldl_append_emit, List.nil_append]
  refine ⟨?_, hflat, ?_, ?_⟩
  · intro fields t ht
    rw [hflat] at ht
    obtain ⟨f, _, hf⟩ := List.mem_flatMap.mp ht
    exact emitField_name_ne f t hf
  · intro f h1 h2
    have hne : ¬ (("table" : String) = "field") := by decide
    by_cases hn : strTrim (f.fieldName.getD "") = ""
    · simp [emitField, hn]
    · simp [emitField, hn, h1, h2, hne]
  · intro f h
    unfold emitField
    rw [h]
    rfl

/-- C8 (witness): the theorem applied to a three-entry demo schema: a
typeless untrimmed field, a column-less table, and a table with one named
and one blank-named column. -/
theorem c8_schema_normalization_witness :
    (tName ∈ normalizeRequestedFields demoSchema)
  ∧ tName.fieldName ≠ ""
  ∧ normalizeRequestedFields demoSchema = demoSchema.flatMap emitField
  ∧ demoRawEmptyTable.fieldType.getD "field" = "table"
  ∧ demoRawEmptyTable.tableData.getD [] = []
  ∧ emitField demoRawEmptyTable = []
  ∧ demoRawField.fieldType = none
  ∧ emitField demoRawField = emitField { demoRawField with fieldType := some "field" } := by
  have hm : tName ∈ normalizeRequestedFields demoSchema := by decide
  exact ⟨hm, c8_schema_normalization.1 demoSchema tName hm,
    c8_schema_normalization.2.1 demoSchema, rfl, rfl,
    c8_schema_normalization.2.2.1 demoRawEmptyTable rfl rfl, rfl,
    c8_schema_normalization.2.2.2 demoRawField rfl⟩

/-- C9: the Part B/C identifiers of the marks parser are always pairwise
distinct (a duplicate `\x7bquestion\x7d\x7bsubpart\x7d` row is rejected),
and on the concrete duplicate table only the FIRST row's entry (marks 10,
not 7) is kept. -/
theorem c9_distinct_bc_ids :
    (∀ tables : List (List (List String)),
      ((extractMarks tables).partBC.map (fun e => e.qNo)).Nodup)
  ∧ (extractMarks [c9dup]).partBC
      = [{ qNo := "11a", marks := some 10, answered := false }] := by
  refine ⟨?_, rfl⟩
  intro tables
  cases tables with
  | nil => exact List.nodup_nil
  | cons t ts =>
    show ((((largestTable t ts).drop 1).foldl stepRow initState).partBC.map
      (fun e => e.qNo)).Nodup
    refine foldlPreserves stepRow
      (fun st => (st.partBC.map (fun e => e.qNo)).Nodup) ?_ _ initState (by simp [initState])
    intro st row hst
    exact nodupBC_stepRow st row hst

/-- C10 (counterexample): for the empty tables input the early return leaves
the metadata dictionary EMPTY, so no counter exists to equal the (zero)
lengths of the entry lists — the claimed equalities cannot even be read off. -/
theorem c10_metadata_counters_cex :
    (extractMarks []).metadata = none
  ∧ (extractMarks []).partA = []
  ∧ (extractMarks []).partBC = []
  ∧ ¬ ∃ m : MarksMeta, (extractMarks []).metadata = some m
      ∧ m.totalA = (extractMarks []).partA.length := by
  refine ⟨rfl, rfl, rfl, ?_⟩
  rintro ⟨m, hm, -⟩
  exact Option.noConfusion hm

/-- C10 (amended): for every NON-empty tables input, the metadata counters
exist and are consistent with the entry lists: total questions equal the
list lengths and answered questions equal the number of entries whose
answered flag is set, for Part A and Part B/C alike. -/
theorem c10_metadata_counters :
    ∀ (t : List (List String)) (ts : List (List (List String))),
      (extractMarks (t :: ts)).metadata = some
        { totalA := (extractMarks (t :: ts)).partA.length,
          answeredA := (extractMarks (t :: ts)).partA.countP (fun e => e.answered),
          totalBC := (extractMarks (t :: ts)).partBC.length,
          answeredBC := (extractMarks (t :: ts)).partBC.countP (fun e => e.answered) } := by
  intro t ts
  have hinv : metaInv (((largestTable t ts).drop 1).foldl stepRow initState) :=
    foldlPreserves stepRow metaInv (fun st row h => metaInv_stepRow st row h)
      ((largestTable t ts).drop 1) initState ⟨rfl, rfl, rfl, rfl⟩
  obtain ⟨h1, h2, h3, h4⟩ := hinv
  show some (((largestTable t ts).drop 1).foldl stepRow initState).meta = some _
  rw [show (extractMarks (t :: ts)).partA
      = (((largestTable t ts).drop 1).foldl stepRow initState).partA from rfl,
    show (extractMarks (t :: ts)).partBC
      = (((largestTable t ts).drop 1).foldl stepRow initState).partBC from rfl,
    ← h1, ← h2, ← h3, ← h4]

end YcRun
